import Mathlib

/-!
Verification of the calibration solution aggregation and phase-fitting pipeline
of `demo/82_calfit.py` (MWA demo repository).

The Python module operates on IEEE-754 double arrays.  The embedding models a
double value by the type `F` below: either a finite value, carried as an exact
real number (`F.fin`), or one of the non-finite values `nan`, `pinf`, `ninf`.
Comparisons follow IEEE semantics (every comparison involving `nan` is false).
Arithmetic on finite values is exact real arithmetic; overflow to infinity is
not modelled.  A complex solution value is modelled by `CF`: either a finite
complex number or the single non-finite marker `CF.nf` (`np.isfinite` on a
complex value only distinguishes finite from non-finite, which is all the
pipeline inspects; the solutions read from disk use NaN as their only
non-finite value).

The functions below keep the names of the Python functions they embed:
`wrap_angle`, `fit_phase_line`, `fit_gain`, `get_metafits_chan_info`,
`get_ref_solutions`, together with the per-timeblock weight builder and the
per-timeblock tile/polarization fitting loop from `main`.
-/

noncomputable section

/-- Model of an IEEE double: a finite exact real, or NaN, or a signed infinity. -/
inductive F where
  | fin (x : ℝ)
  | nan
  | pinf
  | ninf

namespace F

/-- Finiteness test (`np.isfinite`). -/
def isFiniteB : F → Bool
  | fin _ => true
  | _ => false

/-- IEEE `<` comparison: any comparison involving NaN is false. -/
def lt : F → F → Prop
  | fin x, fin y => x < y
  | nan, _ => False
  | _, nan => False
  | ninf, fin _ => True
  | ninf, pinf => True
  | ninf, ninf => False
  | fin _, pinf => True
  | pinf, _ => False
  | fin _, ninf => False

instance decLt : ∀ a b : F, Decidable (F.lt a b) := fun a b =>
  match a, b with
  | fin x, fin y => decidable_of_iff (x < y) (by simp [F.lt])
  | fin x, nan => isFalse (by simp [F.lt])
  | fin x, pinf => isTrue (by simp [F.lt])
  | fin x, ninf => isFalse (by simp [F.lt])
  | nan, b => isFalse (by cases b <;> simp [F.lt])
  | pinf, b => isFalse (by cases b <;> simp [F.lt])
  | ninf, fin y => isTrue (by simp [F.lt])
  | ninf, nan => isFalse (by simp [F.lt])
  | ninf, pinf => isTrue (by simp [F.lt])
  | ninf, ninf => isFalse (by simp [F.lt])

/-- Boolean form of the IEEE `<` comparison. -/
def ltB (a b : F) : Bool := decide (lt a b)

/-- IEEE addition on the modelled doubles (finite arithmetic is exact). -/
def add : F → F → F
  | fin x, fin y => fin (x + y)
  | nan, _ => nan
  | _, nan => nan
  | pinf, ninf => nan
  | ninf, pinf => nan
  | pinf, _ => pinf
  | _, pinf => pinf
  | ninf, _ => ninf
  | _, ninf => ninf

/-- IEEE subtraction on the modelled doubles. -/
def sub : F → F → F
  | fin x, fin y => fin (x - y)
  | nan, _ => nan
  | _, nan => nan
  | pinf, pinf => nan
  | ninf, ninf => nan
  | pinf, _ => pinf
  | _, pinf => ninf
  | ninf, _ => ninf
  | _, ninf => pinf

/-- IEEE multiplication on the modelled doubles. -/
def mul : F → F → F
  | fin x, fin y => fin (x * y)
  | nan, _ => nan
  | _, nan => nan
  | pinf, pinf => pinf
  | pinf, ninf => ninf
  | ninf, pinf => ninf
  | ninf, ninf => pinf
  | pinf, fin y => if y = 0 then nan else if 0 < y then pinf else ninf
  | fin x, pinf => if x = 0 then nan else if 0 < x then pinf else ninf
  | ninf, fin y => if y = 0 then nan else if 0 < y then ninf else pinf
  | fin x, ninf => if x = 0 then nan else if 0 < x then ninf else pinf

/-- IEEE division on the modelled doubles (finite denominators are exact). -/
def div : F → F → F
  | fin x, fin y =>
      if y = 0 then (if x = 0 then nan else if 0 < x then pinf else ninf)
      else fin (x / y)
  | nan, _ => nan
  | _, nan => nan
  | pinf, fin y => if 0 ≤ y then pinf else ninf
  | ninf, fin y => if 0 ≤ y then ninf else pinf
  | fin _, pinf => fin 0
  | fin _, ninf => fin 0
  | pinf, pinf => nan
  | pinf, ninf => nan
  | ninf, pinf => nan
  | ninf, ninf => nan

/-- The `np.exp` of the negation of a modelled double (as in `np.exp(-r)`). -/
def expNeg : F → F
  | fin x => fin (Real.exp (-x))
  | nan => nan
  | pinf => fin 0
  | ninf => pinf

/-- Largest finite double, the value `np.nan_to_num` substitutes for `+inf`. -/
def maxDouble : ℝ := 1.7976931348623157e308

/-- The numpy `nan_to_num` with default arguments: NaN becomes 0, the
infinities become the extreme finite doubles. -/
def nanToNum : F → F
  | fin x => fin x
  | nan => fin 0
  | pinf => fin maxDouble
  | ninf => fin (-maxDouble)

end F

/-- Model of a complex double: finite (exact complex number) or non-finite. -/
inductive CF where
  | fin (z : ℂ)
  | nf

namespace CF

/-- Finiteness test (`np.isfinite` on a complex array element). -/
def isFiniteB : CF → Bool
  | fin _ => true
  | nf => false

/-- Complex multiplication; any non-finite operand contaminates the result. -/
def mul : CF → CF → CF
  | fin z, fin w => fin (z * w)
  | _, _ => nf

/-- Complex subtraction; any non-finite operand contaminates the result. -/
def sub : CF → CF → CF
  | fin z, fin w => fin (z - w)
  | _, _ => nf

/-- The expression `np.divide(1 + 0j, d)`: non-finite whenever `d` is zero
(complex division by zero yields NaN/Inf components) or `d` is non-finite. -/
def oneDiv : CF → CF
  | fin z => if z = 0 then nf else fin z⁻¹
  | nf => nf

/-- The magnitude `np.abs` of a complex solution, as a modelled double. -/
def absF : CF → F
  | fin z => F.fin (Complex.abs z)
  | nf => F.nan

/-- Normalisation `z / np.abs(z)`: NaN for `z = 0` (0/0), unit modulus else. -/
def unit : CF → CF
  | fin z => if z = 0 then nf else fin (z / (Complex.abs z : ℂ))
  | nf => nf

/-- Scaling a complex solution by a modelled-double weight (`solution *= weights`). -/
def scaleF : CF → F → CF
  | fin z, F.fin x => fin ((x : ℂ) * z)
  | _, _ => nf

end CF

/-- Embedding of `wrap_angle` (82_calfit.py:826-828): numpy computes
`np.mod(angle + pi, 2*pi) - pi`, where `np.mod(a, b) = a - b * floor(a / b)`
for a positive modulus `b`. -/
def wrap_angle (x : ℝ) : ℝ :=
  ((x + Real.pi) - (2 * Real.pi) * ⌊(x + Real.pi) / (2 * Real.pi)⌋) - Real.pi

lemma wrap_angle_eq_fract (x : ℝ) :
    wrap_angle x = (2 * Real.pi) * Int.fract ((x + Real.pi) / (2 * Real.pi)) - Real.pi := by
  have h2π : (2 * Real.pi) ≠ 0 := by positivity
  unfold wrap_angle Int.fract
  field_simp

lemma wrap_angle_mem (x : ℝ) : -Real.pi ≤ wrap_angle x ∧ wrap_angle x < Real.pi := by
  have h2π : (0:ℝ) < 2 * Real.pi := by positivity
  rw [wrap_angle_eq_fract]
  constructor
  · have h := Int.fract_nonneg ((x + Real.pi) / (2 * Real.pi))
    nlinarith
  · have h := Int.fract_lt_one ((x + Real.pi) / (2 * Real.pi))
    nlinarith

lemma wrap_angle_eq_self {x : ℝ} (h₁ : -Real.pi ≤ x) (h₂ : x < Real.pi) :
    wrap_angle x = x := by
  have h2π : (0:ℝ) < 2 * Real.pi := by positivity
  have hfloor : ⌊(x + Real.pi) / (2 * Real.pi)⌋ = 0 := by
    rw [Int.floor_eq_zero_iff]
    constructor
    · rw [le_div_iff₀ h2π]
      nlinarith
    · rw [div_lt_iff₀ h2π]
      nlinarith
  unfold wrap_angle
  rw [hfloor]
  ring

/-- C9: for every real `x`, `wrap_angle x` lies in `[-π, π)` and `wrap_angle`
is idempotent: `wrap_angle (wrap_angle x) = wrap_angle x`. -/
theorem c9_wrap_angle_range_idempotent (x : ℝ) :
    (-Real.pi ≤ wrap_angle x ∧ wrap_angle x < Real.pi) ∧
      wrap_angle (wrap_angle x) = wrap_angle x :=
  ⟨wrap_angle_mem x,
   wrap_angle_eq_self (wrap_angle_mem x).1 (wrap_angle_mem x).2⟩

/-- Result record of fitting one tile × polarization (class `PhaseFitInfo`,
82_calfit.py:750-778). -/
structure PhaseFitInfo where
  length : F
  intercept : F
  iono_alpha : F
  sigma_resid : F
  chi2dof : F
  quality : F
  stderr : F

/-- The all-NaN sentinel `PhaseFitInfo.nan()` (82_calfit.py:766-778). -/
def PhaseFitInfo.nan : PhaseFitInfo :=
  ⟨F.nan, F.nan, F.nan, F.nan, F.nan, F.nan, F.nan⟩

/-- Failure modes of `fit_phase_line`.  `emptyDiffMin` is the ValueError numpy
raises when `np.min` is applied to the empty `np.diff` of a 0- or 1-element
frequency array (82_calfit.py:862); `notEnoughValidPhases` is the named
RuntimeError of 82_calfit.py:867; `other` stands for any numpy error raised by
the numeric code after validation. -/
inductive FitErr where
  | emptyDiffMin
  | notEnoughValidPhases
  | other
deriving DecidableEq

/-- Control skeleton of the iteratively-reweighted refinement loop of
`fit_phase_line` (82_calfit.py:973-1023).  The loop body — one
`scipy.optimize.minimize` call followed by the residual-based re-masking that
shrinks the retained channel set — is third-party numeric code and is
abstracted as an arbitrary state transformer `step`; `count` reads the number
of retained channels off the state.  The loop is
`while len(mask) >= 2 and iteration_count < max_iterations`, modelled
structurally on the remaining number of iterations: `refineLoopAux step count
remaining ic s` runs with `remaining = max_iterations - ic`. -/
def refineLoopAux {σ : Type} (step : σ → σ) (count : σ → ℕ) :
    ℕ → ℕ → σ → σ × ℕ
  | 0, ic, s => (s, ic)
  | n + 1, ic, s =>
      if 2 ≤ count s then refineLoopAux step count n (ic + 1) (step s)
      else (s, ic)

/-- The full refinement loop: `iteration_count = 0`,
`max_iterations = max(niter, 10)` (82_calfit.py:973-974).  Returns the final
state together with the number of iterations performed. -/
def refineLoop {σ : Type} (step : σ → σ) (count : σ → ℕ) (niter : ℕ) (s : σ) :
    σ × ℕ :=
  refineLoopAux step count (max niter 10) 0 s

lemma refineLoopAux_bound {σ : Type} (step : σ → σ) (count : σ → ℕ) :
    ∀ (n ic : ℕ) (s : σ),
      (refineLoopAux step count n ic s).2 ≤ ic + n ∧
        (count (refineLoopAux step count n ic s).1 < 2 ∨
          (refineLoopAux step count n ic s).2 = ic + n) := by
  intro n
  induction n with
  | zero => intro ic s; simp [refineLoopAux]
  | succ n ih =>
      intro ic s
      by_cases h : 2 ≤ count s
      · have h2 := ih (ic + 1) (step s)
        simp only [refineLoopAux, if_pos h]
        refine ⟨by omega, ?_⟩
        rcases h2.2 with h3 | h3
        · exact Or.inl h3
        · exact Or.inr (by omega)
      · simp only [refineLoopAux, if_neg h]
        exact ⟨by omega, Or.inl (by omega)⟩

/-- C8 (amended): the refinement loop always terminates after at most
`max(niter, 10)` iterations, and it stops early only because the retained
channel count fell below 2 — otherwise it performs exactly `max(niter, 10)`
iterations.  (An iteration that drops no channels does not end the loop.) -/
theorem c8_refine_loop_bounded {σ : Type} (step : σ → σ) (count : σ → ℕ)
    (niter : ℕ) (s : σ) :
    (refineLoop step count niter s).2 ≤ max niter 10 ∧
      (count (refineLoop step count niter s).1 < 2 ∨
        (refineLoop step count niter s).2 = max niter 10) := by
  have h := refineLoopAux_bound step count (max niter 10) 0 s
  simpa [refineLoop] using h

/-- C8 counterexample: with a loop body that never drops a channel (state
unchanged, 2 channels retained throughout) and `niter = 1`, the loop performs
all `max(1, 10) = 10` iterations.  The claim that the loop repeats "only until
an iteration drops no channels" would have it stop after the first iteration,
so the iteration count would be at most 1, not 10. -/
theorem c8_counterexample :
    (refineLoop (fun s : ℕ => s) (fun s : ℕ => s) 1 2).2 = 10 ∧ ¬(10 ≤ 1) := by
  constructor
  · decide
  · decide

/-- Embedding of the per-timeblock tile × polarization fitting loop of `main`
(82_calfit.py:1725-1744): each item is one tile/pol slot, `fitf` is the
`fit_phase_line` call on that slot's data; a raised error is caught, printed
and answered with `continue` (no row is appended), a successful fit appends
its row. -/
def processTileFits {α : Type} (fitf : α → Except FitErr PhaseFitInfo) :
    List α → List (α × PhaseFitInfo)
  | [] => []
  | item :: rest =>
      match fitf item with
      | .error _ => processTileFits fitf rest
      | .ok fit => (item, fit) :: processTileFits fitf rest

/-- C3 (amended): a tile/pol whose fit raises is caught and skipped — the loop
records nothing for it (in particular not the all-NaN sentinel) and continues;
every tile/pol whose fit succeeds still gets its row, so one failure never
aborts the batch. -/
theorem c3_fit_failure_skipped {α : Type} (fitf : α → Except FitErr PhaseFitInfo)
    (items : List α) :
    processTileFits fitf items =
      items.filterMap (fun it => ((fitf it).toOption).map (fun f => (it, f))) ∧
      ∀ it fi, it ∈ items → fitf it = .ok fi →
        (it, fi) ∈ processTileFits fitf items := by
  constructor
  · induction items with
    | nil => simp [processTileFits]
    | cons item rest ih =>
        cases h : fitf item with
        | error e => simp [processTileFits, h, ih, Except.toOption]
        | ok fit => simp [processTileFits, h, ih, Except.toOption]
  · induction items with
    | nil => simp
    | cons item rest ih =>
        intro it fi hmem hok
        rcases List.mem_cons.mp hmem with h | h
        · subst h
          simp [processTileFits, hok]
        · cases hfi : fitf item with
          | error e => simpa [processTileFits, hfi] using ih it fi h hok
          | ok fit =>
              simp only [processTileFits, hfi]
              exact List.mem_cons_of_mem _ (ih it fi h hok)

/-- A sample successful fit result used in the C3 counterexample. -/
def sampleFit : PhaseFitInfo :=
  ⟨F.fin 1, F.fin 0, F.nan, F.fin 0, F.fin 0, F.fin 1, F.fin 0⟩

/-- A fit function for which the middle tile/pol of three fails with the
"not enough valid phases" error and the other two succeed. -/
def failingMidFit : ℕ → Except FitErr PhaseFitInfo :=
  fun n => if n = 1 then .error .notEnoughValidPhases else .ok sampleFit

/-- C3 counterexample: of three tile/pol slots whose middle fit fails, the
loop records only two rows — the failed slot gets no row at all, and no
recorded row is the all-NaN sentinel, contrary to the claim that the sentinel
is substituted as the failed slot's recorded result. -/
theorem c3_counterexample :
    (processTileFits failingMidFit [0, 1, 2]).length = 2 ∧
      (∀ r ∈ processTileFits failingMidFit [0, 1, 2], r.2 ≠ PhaseFitInfo.nan) ∧
      ¬((1, PhaseFitInfo.nan) ∈ processTileFits failingMidFit [0, 1, 2]) := by
  have hrows : processTileFits failingMidFit [0, 1, 2] =
      [(0, sampleFit), (2, sampleFit)] := by
    simp [processTileFits, failingMidFit]
  refine ⟨by rw [hrows]; rfl, ?_, ?_⟩
  · intro r hr
    rw [hrows] at hr
    rcases List.mem_cons.mp hr with h | h
    · subst h
      simp [sampleFit, PhaseFitInfo.nan]
    · rcases List.mem_singleton.mp h with h
      subst h
      simp [sampleFit, PhaseFitInfo.nan]
  · intro hmem
    rw [hrows] at hmem
    rcases List.mem_cons.mp hmem with h | h
    · exact absurd (congrArg Prod.fst h) (by simp)
    · rcases List.mem_singleton.mp h with h
      exact absurd (congrArg Prod.fst h) (by simp)

/-- NaN test on a modelled double. -/
def F.isNanB : F → Bool
  | F.nan => true
  | _ => false

/-- IEEE `==` comparison against zero (`denom == 0`); false for NaN and the
infinities. -/
def F.eqZeroB : F → Bool
  | F.fin x => decide (x = 0)
  | _ => false

/-- Maximum of two non-NaN modelled doubles (used only on NaN-filtered data). -/
def F.max2 : F → F → F
  | F.fin x, F.fin y => F.fin (max x y)
  | F.pinf, _ => F.pinf
  | _, F.pinf => F.pinf
  | F.ninf, b => b
  | a, F.ninf => a
  | F.nan, _ => F.nan
  | _, F.nan => F.nan

/-- Minimum of two non-NaN modelled doubles (used only on NaN-filtered data). -/
def F.min2 : F → F → F
  | F.fin x, F.fin y => F.fin (min x y)
  | F.ninf, _ => F.ninf
  | _, F.ninf => F.ninf
  | F.pinf, b => b
  | a, F.pinf => a
  | F.nan, _ => F.nan
  | _, F.nan => F.nan

/-- The numpy `nanmax` reduction: maximum over the non-NaN entries, NaN if
every entry is NaN (numpy emits a warning and returns NaN, it does not raise). -/
def nanmaxF (l : List F) : F :=
  match l.filter (fun x => !x.isNanB) with
  | [] => F.nan
  | x :: xs => xs.foldl F.max2 x

/-- The numpy `nanmin` reduction: minimum over the non-NaN entries, NaN if
every entry is NaN. -/
def nanminF (l : List F) : F :=
  match l.filter (fun x => !x.isNanB) with
  | [] => F.nan
  | x :: xs => xs.foldl F.min2 x

/-- The invalid-value masking of the per-timeblock weight builder
(82_calfit.py:1695-1696): `r[r < 0] = np.nan; r[r > 1e-4] = np.nan`,
elementwise with IEEE comparisons (so NaN entries stay NaN). -/
def invalidateResult (x : F) : F :=
  if F.lt x (F.fin 0) then F.nan
  else if F.lt (F.fin (1 / 10000)) x then F.nan
  else x

/-- The masked array `exp_r = np.exp(-r)` after invalidation
(82_calfit.py:1695-1697). -/
def weightExpR (r : List F) : List F :=
  (r.map invalidateResult).map F.expNeg

/-- The normalisation denominator `np.nanmax(exp_r) - np.nanmin(exp_r)`
(82_calfit.py:1698). -/
def weightDenom (r : List F) : F :=
  F.sub (nanmaxF (weightExpR r)) (nanminF (weightExpR r))

/-- Embedding of the per-timeblock weight builder of `main`
(82_calfit.py:1694-1702): mask invalid convergence values to NaN, take
`exp(-r)`, and min-max normalise unless the denominator `nanmax - nanmin` is
zero or non-finite, in which case `np.nan_to_num(exp_r)` is returned as-is. -/
def buildWeights (r : List F) : List F :=
  if (weightDenom r).eqZeroB || !(weightDenom r).isFiniteB then
    (weightExpR r).map F.nanToNum
  else
    (weightExpR r).map
      (fun e => F.nanToNum (F.div (F.sub e (nanminF (weightExpR r))) (weightDenom r)))

/-- An entry of the convergence/results vector rejected by the builder:
negative, above the `1e-4` convergence threshold, or already NaN. -/
def invalidEntry (x : F) : Prop :=
  F.lt x (F.fin 0) ∨ F.lt (F.fin (1 / 10000)) x ∨ x = F.nan

lemma F.nanToNum_finite (x : F) : (F.nanToNum x).isFiniteB = true := by
  cases x <;> simp [F.nanToNum, F.isFiniteB]

lemma invalidateResult_of_invalid {x : F} (h : invalidEntry x) :
    invalidateResult x = F.nan := by
  unfold invalidateResult
  rcases h with h | h | h
  · rw [if_pos h]
  · by_cases h0 : F.lt x (F.fin 0)
    · rw [if_pos h0]
    · rw [if_neg h0, if_pos h]
  · subst h
    simp [F.lt]

lemma buildWeights_shape (r : List F) :
    ∃ g : F → F, buildWeights r = (weightExpR r).map (fun e => F.nanToNum (g e)) := by
  unfold buildWeights
  by_cases h : ((weightDenom r).eqZeroB || !(weightDenom r).isFiniteB) = true
  · exact ⟨fun e => e, by rw [if_pos h]⟩
  · exact ⟨fun e => F.div (F.sub e (nanminF (weightExpR r))) (weightDenom r),
      by rw [if_neg h]⟩

lemma buildWeights_all_invalid {r : List F} (hall : ∀ x ∈ r, invalidEntry x) :
    buildWeights r = r.map (fun _ => F.fin 0) := by
  have hexp : weightExpR r = r.map (fun _ => F.nan) := by
    unfold weightExpR
    rw [List.map_congr_left (fun x hx => invalidateResult_of_invalid (hall x hx)),
      List.map_map]
    rfl
  have hfilter : (r.map (fun _ => F.nan)).filter (fun x => !x.isNanB) = [] := by
    rw [List.filter_eq_nil_iff]
    intro a ha
    rcases List.mem_map.mp ha with ⟨x, _, rfl⟩
    simp [F.isNanB]
  have hden : weightDenom r = F.nan := by
    unfold weightDenom nanmaxF nanminF
    rw [hexp, hfilter]
    rfl
  unfold buildWeights
  rw [hden, hexp]
  simp only [F.eqZeroB, F.isFiniteB, Bool.false_or, Bool.not_false, if_true]
  rw [List.map_map]
  rfl

lemma buildWeights_degenerate {r : List F}
    (h : (weightDenom r).eqZeroB = true ∨ (weightDenom r).isFiniteB = false) :
    buildWeights r = (weightExpR r).map F.nanToNum := by
  unfold buildWeights
  rcases h with h | h
  · rw [if_pos (by simp [h])]
  · rw [if_pos (by simp [h])]

lemma foldl_max2_const (v : ℝ) :
    ∀ xs : List F, (∀ x ∈ xs, x = F.fin v) →
      xs.foldl F.max2 (F.fin v) = F.fin v := by
  intro xs
  induction xs with
  | nil => intro _; rfl
  | cons x rest ih =>
      intro h
      have hx := h x (List.mem_cons_self x rest)
      subst hx
      simp only [List.foldl_cons, F.max2, max_self]
      exact ih (fun y hy => h y (List.mem_cons_of_mem _ hy))

lemma foldl_min2_const (v : ℝ) :
    ∀ xs : List F, (∀ x ∈ xs, x = F.fin v) →
      xs.foldl F.min2 (F.fin v) = F.fin v := by
  intro xs
  induction xs with
  | nil => intro _; rfl
  | cons x rest ih =>
      intro h
      have hx := h x (List.mem_cons_self x rest)
      subst hx
      simp only [List.foldl_cons, F.min2, min_self]
      exact ih (fun y hy => h y (List.mem_cons_of_mem _ hy))

lemma weightDenom_degenerate_of_const {r : List F} {v : ℝ}
    (h : ∀ x ∈ weightExpR r, x = F.nan ∨ x = F.fin v) :
    (weightDenom r).eqZeroB = true ∨ (weightDenom r).isFiniteB = false := by
  have hfilter : ∀ x ∈ (weightExpR r).filter (fun x => !x.isNanB), x = F.fin v := by
    intro x hx
    have hmem := List.mem_of_mem_filter hx
    have hpass := List.of_mem_filter hx
    rcases h x hmem with h1 | h1
    · subst h1
      simp [F.isNanB] at hpass
    · exact h1
  rcases hf : (weightExpR r).filter (fun x => !x.isNanB) with _ | ⟨x, xs⟩
  · right
    have hden : weightDenom r = F.nan := by
      unfold weightDenom nanmaxF nanminF
      rw [hf]
      rfl
    rw [hden]
    rfl
  · left
    have hx : x = F.fin v := hfilter x (hf ▸ List.mem_cons_self x xs)
    have hxs : ∀ y ∈ xs, y = F.fin v :=
      fun y hy => hfilter y (hf ▸ List.mem_cons_of_mem x hy)
    have hmax : nanmaxF (weightExpR r) = F.fin v := by
      unfold nanmaxF
      rw [hf, hx]
      exact foldl_max2_const v xs hxs
    have hmin : nanminF (weightExpR r) = F.fin v := by
      unfold nanminF
      rw [hf, hx]
      exact foldl_min2_const v xs hxs
    have hden : weightDenom r = F.fin (v - v) := by
      unfold weightDenom
      rw [hmax, hmin]
      rfl
    rw [hden]
    simp [F.eqZeroB, sub_self]

/-- C4 (amended): the per-timeblock weight builder is total (never raises)
and always returns a vector of the same length as its input whose entries are
all finite (never NaN or Inf).  Whenever the normalisation denominator
`nanmax(exp_r) - nanmin(exp_r)` is zero or non-finite — in particular
whenever all finite `exp(-r)` values coincide (max equals min), and whenever
every entry of the results vector is invalid — it returns
`np.nan_to_num(exp(-r))` elementwise: 0 at each invalid channel and the
unnormalised `exp(-r)` value at each valid channel.  For an entirely-invalid
vector this is the all-zeros vector, not a vector of ones. -/
theorem c4_weight_degeneracy (r : List F) :
    (buildWeights r).length = r.length ∧
      (∀ w ∈ buildWeights r, w.isFiniteB = true) ∧
      (((weightDenom r).eqZeroB = true ∨ (weightDenom r).isFiniteB = false) →
        buildWeights r = (weightExpR r).map F.nanToNum) ∧
      (∀ v : ℝ, (∀ x ∈ weightExpR r, x = F.nan ∨ x = F.fin v) →
        buildWeights r = (weightExpR r).map F.nanToNum) ∧
      ((∀ x ∈ r, invalidEntry x) →
        buildWeights r = r.map (fun _ => F.fin 0)) := by
  obtain ⟨g, hg⟩ := buildWeights_shape r
  refine ⟨?_, ?_, buildWeights_degenerate, ?_, buildWeights_all_invalid⟩
  · rw [hg]
    simp [weightExpR]
  · intro w hw
    rw [hg] at hw
    rcases List.mem_map.mp hw with ⟨e, _, rfl⟩
    exact F.nanToNum_finite (g e)
  · intro v hv
    exact buildWeights_degenerate (weightDenom_degenerate_of_const hv)

/-- C4 counterexample: for the entirely-invalid results vector `[-1, -1]`
(both entries negative), the weight builder returns the all-zeros vector
`[0, 0]`, not the claimed uniform vector of ones `[1, 1]`. -/
theorem c4_counterexample :
    (∀ x ∈ [F.fin (-1), F.fin (-1)], invalidEntry x) ∧
      buildWeights [F.fin (-1), F.fin (-1)] = [F.fin 0, F.fin 0] ∧
      [F.fin 0, F.fin 0] ≠ [F.fin 1, F.fin 1] := by
  have hinv : ∀ x ∈ [F.fin (-1), F.fin (-1)], invalidEntry x := by
    intro x hx
    rcases List.mem_cons.mp hx with h | h
    · subst h
      exact Or.inl (by norm_num [F.lt])
    · rcases List.mem_singleton.mp h with h
      subst h
      exact Or.inl (by norm_num [F.lt])
  refine ⟨hinv, ?_, ?_⟩
  · rw [buildWeights_all_invalid hinv]
    rfl
  · intro h
    have h0 := List.head_eq_of_cons_eq h
    have : (0 : ℝ) = 1 := by injection h0
    norm_num at this

/-- C4 witness: the theorem applied to two concrete inputs.  The all-invalid
vector `[37]` (37 is above the 1e-4 convergence threshold) yields `[0]`.  The
entirely-valid but degenerate vector `[1e-4, 1e-4]` (all finite `exp(-r)`
values equal) yields `np.nan_to_num(exp(-r))` — the unnormalised `exp(-1e-4)`
at both channels. -/
theorem c4_witness :
    ((∀ x ∈ [F.fin 37], invalidEntry x) ∧
      buildWeights [F.fin 37] = [F.fin 37].map (fun _ => F.fin 0)) ∧
      ((∀ x ∈ weightExpR [F.fin (1 / 10000), F.fin (1 / 10000)],
          x = F.nan ∨ x = F.fin (Real.exp (-(1 / 10000)))) ∧
        buildWeights [F.fin (1 / 10000), F.fin (1 / 10000)] =
          (weightExpR [F.fin (1 / 10000), F.fin (1 / 10000)]).map F.nanToNum) := by
  have hinv : ∀ x ∈ [F.fin 37], invalidEntry x := by
    intro x hx
    rcases List.mem_singleton.mp hx with h
    subst h
    exact Or.inr (Or.inl (by norm_num [F.lt]))
  have hval : invalidateResult (F.fin (1 / 10000)) = F.fin (1 / 10000) := by
    unfold invalidateResult
    rw [if_neg (by norm_num [F.lt]), if_neg (by norm_num [F.lt])]
  have hexp : weightExpR [F.fin (1 / 10000), F.fin (1 / 10000)] =
      [F.fin (Real.exp (-(1 / 10000))), F.fin (Real.exp (-(1 / 10000)))] := by
    unfold weightExpR
    simp only [List.map_cons, List.map_nil, hval]
    rfl
  have hconst : ∀ x ∈ weightExpR [F.fin (1 / 10000), F.fin (1 / 10000)],
      x = F.nan ∨ x = F.fin (Real.exp (-(1 / 10000))) := by
    intro x hx
    rw [hexp] at hx
    rcases List.mem_cons.mp hx with h | h
    · exact Or.inr h
    · exact Or.inr (List.mem_singleton.mp h)
  exact ⟨⟨hinv, (c4_weight_degeneracy [F.fin 37]).2.2.2.2 hinv⟩,
    ⟨hconst, (c4_weight_degeneracy [F.fin (1 / 10000), F.fin (1 / 10000)]).2.2.2.1
      (Real.exp (-(1 / 10000))) hconst⟩⟩

/-- C3 witness: the amended theorem applied to a concrete batch of two slots
whose first fit succeeds: the successful row is recorded. -/
theorem c3_witness :
    (0 ∈ [0, 2] ∧ failingMidFit 0 = .ok sampleFit) ∧
      (0, sampleFit) ∈ processTileFits failingMidFit [0, 2] :=
  ⟨⟨by simp, rfl⟩,
    (c3_fit_failure_skipped failingMidFit [0, 2]).2 0 sampleFit (by simp) rfl⟩

/-- Channel selection info (NamedTuple `ChanInfo`, 82_calfit.py:67-72):
`coarse_chan_ranges` is a list of coarse-channel index ranges, each stored as
the list of its indices (the metafits reader produces contiguous ascending
runs); the fine-channel geometry is carried alongside. -/
structure ChanInfo where
  coarse_chan_ranges : List (List ℤ)
  fine_chans_per_coarse : ℕ
  fine_chan_width_hz : ℤ
deriving DecidableEq

/-- Failure modes of `HyperfitsSolutionGroup.get_metafits_chan_info`
(82_calfit.py:392-430).  `overlap` carries the offending pair of ranges named
by the raised RuntimeError. -/
inductive ChanErr where
  | noMetafits
  | finePerCoarseMismatch
  | fineWidthMismatch
  | overlap (left right : List ℤ)
deriving DecidableEq

/-- The sort key `x[0]` of a range (82_calfit.py:417). -/
def rangeStart (r : List ℤ) : ℤ := r.headI

/-- The last element `x[-1]` of a range. -/
def rangeEnd (r : List ℤ) : ℤ := r.getLastD 0

/-- Ranges ordered by their starting index, the key of the Python `sorted`. -/
def rangeLE (a b : List ℤ) : Prop := rangeStart a ≤ rangeStart b

instance : DecidableRel rangeLE :=
  fun a b => inferInstanceAs (Decidable (rangeStart a ≤ rangeStart b))

instance : IsTotal (List ℤ) rangeLE :=
  ⟨fun a b => le_total (rangeStart a) (rangeStart b)⟩

instance : IsTrans (List ℤ) rangeLE :=
  ⟨fun _ _ _ => le_trans⟩

/-- The overlap assertion of 82_calfit.py:420-425: walk consecutive pairs of
the sorted ranges and raise on `left[0] == right[0] or left[-1] >= right[0]`,
naming the offending pair. -/
def checkRangePairs : List (List ℤ) → Except ChanErr Unit
  | l :: r :: rest =>
      if rangeStart l = rangeStart r ∨ rangeStart r ≤ rangeEnd l then
        .error (.overlap l r)
      else checkRangePairs (r :: rest)
  | _ => .ok ()

/-- The metafits loop of 82_calfit.py:401-415: validate each further source's
fine-channel parameters against the first source's and accumulate its coarse
channel ranges. -/
def collectRangesGo (first : ChanInfo) :
    List (List ℤ) → List ChanInfo → Except ChanErr (List (List ℤ))
  | acc, [] => .ok acc
  | acc, ci :: rest =>
      if ci.fine_chans_per_coarse ≠ first.fine_chans_per_coarse then
        .error .finePerCoarseMismatch
      else if ci.fine_chan_width_hz ≠ first.fine_chan_width_hz then
        .error .fineWidthMismatch
      else collectRangesGo first (acc ++ ci.coarse_chan_ranges) rest

/-- Embedding of `HyperfitsSolutionGroup.get_metafits_chan_info`
(82_calfit.py:392-430): collect every source's coarse channel ranges
(validating the fine-channel parameters agree), sort them by starting index,
assert no two consecutive sorted ranges overlap, and return the merged
`ChanInfo`. -/
def get_metafits_chan_info : List ChanInfo → Except ChanErr ChanInfo
  | [] => .error .noMetafits
  | first :: rest =>
      match collectRangesGo first first.coarse_chan_ranges rest with
      | .error e => .error e
      | .ok allRanges =>
          match checkRangePairs (List.insertionSort rangeLE allRanges) with
          | .error e => .error e
          | .ok _ =>
              .ok ⟨List.insertionSort rangeLE allRanges,
                first.fine_chans_per_coarse, first.fine_chan_width_hz⟩

/-- Two ranges, read as the integer intervals `[start, end]`, intersect. -/
def rangesOverlap (a b : List ℤ) : Prop :=
  rangeStart a ≤ rangeEnd b ∧ rangeStart b ≤ rangeEnd a

/-- Two ranges are disjoint and non-adjacent: a gap of at least one index
separates them (in either order). -/
def rangesSeparated (a b : List ℤ) : Prop :=
  rangeEnd a + 1 < rangeStart b ∨ rangeEnd b + 1 < rangeStart a

/-- A well-formed range: non-empty with its first element at most its last
(the metafits reader produces contiguous ascending runs). -/
def rangeWF (r : List ℤ) : Prop :=
  r ≠ [] ∧ rangeStart r ≤ rangeEnd r

/-- The concatenation of every source's ranges, in source order, as built by
the loop of 82_calfit.py:399-415. -/
def allRangesOf (first : ChanInfo) (rest : List ChanInfo) : List (List ℤ) :=
  first.coarse_chan_ranges ++ (rest.map ChanInfo.coarse_chan_ranges).flatten

example : checkRangePairs [[0, 1], [3, 4]] = .ok () := rfl

example : checkRangePairs [[0, 1], [1, 4]] = .error (.overlap [0, 1] [1, 4]) := rfl

instance : ∀ a b : List ℤ, Decidable (rangesOverlap a b) := fun a b =>
  inferInstanceAs (Decidable (rangeStart a ≤ rangeEnd b ∧ rangeStart b ≤ rangeEnd a))

instance : ∀ a b : List ℤ, Decidable (rangesSeparated a b) := fun a b =>
  inferInstanceAs (Decidable (rangeEnd a + 1 < rangeStart b ∨ rangeEnd b + 1 < rangeStart a))

instance : ∀ r : List ℤ, Decidable (rangeWF r) := fun r =>
  inferInstanceAs (Decidable (r ≠ [] ∧ rangeStart r ≤ rangeEnd r))

/-- Strict separation in sorted order: the left range ends before the right
range starts. -/
def rangeSepLt (a b : List ℤ) : Prop := rangeEnd a < rangeStart b

lemma collectRangesGo_ok (first : ChanInfo) :
    ∀ (rest : List ChanInfo) (acc : List (List ℤ)),
      (∀ ci ∈ rest, ci.fine_chans_per_coarse = first.fine_chans_per_coarse ∧
        ci.fine_chan_width_hz = first.fine_chan_width_hz) →
      collectRangesGo first acc rest =
        .ok (acc ++ (rest.map ChanInfo.coarse_chan_ranges).flatten) := by
  intro rest
  induction rest with
  | nil => intro acc _; simp [collectRangesGo]
  | cons ci rest ih =>
      intro acc h
      have h1 := h ci (List.mem_cons_self ci rest)
      have h2 : ∀ c ∈ rest, c.fine_chans_per_coarse = first.fine_chans_per_coarse ∧
          c.fine_chan_width_hz = first.fine_chan_width_hz :=
        fun c hc => h c (List.mem_cons_of_mem ci hc)
      simp only [collectRangesGo, h1.1, h1.2, ne_eq, not_true_eq_false, if_false,
        ih (acc ++ ci.coarse_chan_ranges) h2, List.map_cons, List.flatten_cons,
        List.append_assoc]

lemma checkRangePairs_ok_pairwise :
    ∀ (s : List (List ℤ)), (∀ r ∈ s, rangeWF r) → List.Sorted rangeLE s →
      checkRangePairs s = .ok () → s.Pairwise rangeSepLt := by
  intro s
  induction s with
  | nil => intro _ _ _; simp
  | cons l rest ih =>
      intro hwf hs hok
      cases rest with
      | nil => simp
      | cons r rest2 =>
          rw [checkRangePairs] at hok
          by_cases hc : rangeStart l = rangeStart r ∨ rangeStart r ≤ rangeEnd l
          · rw [if_pos hc] at hok
            exact absurd hok (by simp)
          · rw [if_neg hc] at hok
            push_neg at hc
            have hlr : rangeEnd l < rangeStart r := hc.2
            have htail : (r :: rest2).Pairwise rangeSepLt :=
              ih (fun x hx => hwf x (List.mem_cons_of_mem l hx)) hs.of_cons hok
            refine List.Pairwise.cons ?_ htail
            intro x hx
            rcases List.mem_cons.mp hx with h | h
            · subst h
              exact hlr
            · have hrx : rangeLE r x :=
                (List.pairwise_cons.mp hs.of_cons).1 x h
              exact lt_of_lt_of_le hlr hrx

lemma checkRangePairs_error_overlap :
    ∀ (s : List (List ℤ)), (∀ r ∈ s, rangeWF r) → List.Sorted rangeLE s →
      ∀ e, checkRangePairs s = .error e →
        ∃ l r, e = .overlap l r ∧ rangesOverlap l r := by
  intro s
  induction s with
  | nil => intro _ _ e he; simp [checkRangePairs] at he
  | cons l rest ih =>
      intro hwf hs e he
      cases rest with
      | nil => simp [checkRangePairs] at he
      | cons r rest2 =>
          rw [checkRangePairs] at he
          by_cases hc : rangeStart l = rangeStart r ∨ rangeStart r ≤ rangeEnd l
          · rw [if_pos hc] at he
            have hwl := hwf l (List.mem_cons_self l _)
            have hwr := hwf r (List.mem_cons_of_mem l (List.mem_cons_self r _))
            refine ⟨l, r, by simpa using he.symm, ?_⟩
            have hlr : rangeLE l r := (List.pairwise_cons.mp hs).1 r
              (List.mem_cons_self r rest2)
            rcases hc with hc | hc
            · exact ⟨hc ▸ hwr.2, hc ▸ hwl.2⟩
            · exact ⟨le_trans hlr hwr.2, hc⟩
          · rw [if_neg hc] at he
            exact ih (fun x hx => hwf x (List.mem_cons_of_mem l hx)) hs.of_cons e he

lemma checkRangePairs_ok_of_separated :
    ∀ (s : List (List ℤ)), (∀ r ∈ s, rangeWF r) → List.Sorted rangeLE s →
      s.Pairwise rangesSeparated → checkRangePairs s = .ok () := by
  intro s
  induction s with
  | nil => intro _ _ _; rfl
  | cons l rest ih =>
      intro hwf hs hsep
      cases rest with
      | nil => rfl
      | cons r rest2 =>
          have hwl := hwf l (List.mem_cons_self l _)
          have hwr := hwf r (List.mem_cons_of_mem l (List.mem_cons_self r _))
          have hlr : rangeLE l r := (List.pairwise_cons.mp hs).1 r
            (List.mem_cons_self r rest2)
          have hsepr : rangesSeparated l r := (List.pairwise_cons.mp hsep).1 r
            (List.mem_cons_self r rest2)
          have hend : rangeEnd l + 1 < rangeStart r := by
            rcases hsepr with h | h
            · exact h
            · exact absurd (lt_of_le_of_lt (le_trans hlr hwr.2) (by omega))
                (lt_irrefl (rangeStart l))
          rw [checkRangePairs, if_neg ?_]
          · exact ih (fun x hx => hwf x (List.mem_cons_of_mem l hx)) hs.of_cons
              hsep.of_cons
          · push_neg
            constructor
            · intro h
              have := hwl.2
              omega
            · omega

lemma perm_pair {α : Type} {t : List α} {l r : α} (p : t.Perm [l, r]) :
    t = [l, r] ∨ t = [r, l] := by
  have hlen : t.length = 2 := p.length_eq
  match t, hlen with
  | [a, b], _ =>
      have ha : a ∈ ([l, r] : List α) := p.mem_iff.mp (by simp)
      rcases (by simpa using ha : a = l ∨ a = r) with h | h
      · subst h
        left
        have hb : [b].Perm [r] := p.cons_inv
        rw [List.perm_singleton.mp hb]
      · subst h
        right
        have p2 : ([a, b] : List α).Perm [a, l] :=
          p.trans (List.Perm.swap a l [])
        have hb : [b].Perm [l] := p2.cons_inv
        rw [List.perm_singleton.mp hb]

lemma rangesSeparated_symm : Symmetric rangesSeparated := by
  intro a b h
  rcases h with h | h
  · exact Or.inr h
  · exact Or.inl h

/-- C5: channel reconciliation over well-formed, parameter-consistent metafits
sources.  If any two of the collected coarse-channel ranges overlap (as index
intervals), `get_metafits_chan_info` fails with an error naming a pair of
ranges that really overlap; if all ranges are pairwise disjoint and
non-adjacent, it succeeds and returns the merged `ChanInfo` holding the sorted
ranges and the shared fine-channel parameters. -/
theorem c5_channel_overlap_detection (first : ChanInfo) (rest : List ChanInfo)
    (hEq : ∀ ci ∈ rest, ci.fine_chans_per_coarse = first.fine_chans_per_coarse ∧
      ci.fine_chan_width_hz = first.fine_chan_width_hz)
    (hwf : ∀ r ∈ allRangesOf first rest, rangeWF r) :
    ((∃ l r, List.Subperm [l, r] (allRangesOf first rest) ∧ rangesOverlap l r) →
      ∃ l r, get_metafits_chan_info (first :: rest) = .error (.overlap l r) ∧
        rangesOverlap l r) ∧
    ((allRangesOf first rest).Pairwise rangesSeparated →
      get_metafits_chan_info (first :: rest) =
        .ok ⟨List.insertionSort rangeLE (allRangesOf first rest),
          first.fine_chans_per_coarse, first.fine_chan_width_hz⟩) := by
  have hcollect : collectRangesGo first first.coarse_chan_ranges rest =
      .ok (allRangesOf first rest) :=
    collectRangesGo_ok first rest first.coarse_chan_ranges hEq
  have hperm : (List.insertionSort rangeLE (allRangesOf first rest)).Perm
      (allRangesOf first rest) := List.perm_insertionSort rangeLE _
  have hsort : List.Sorted rangeLE (List.insertionSort rangeLE (allRangesOf first rest)) :=
    List.sorted_insertionSort rangeLE _
  have hwfs : ∀ r ∈ List.insertionSort rangeLE (allRangesOf first rest), rangeWF r :=
    fun r hr => hwf r (hperm.subset hr)
  constructor
  · rintro ⟨l, r, hsub, hov⟩
    have hsub2 : List.Subperm [l, r]
        (List.insertionSort rangeLE (allRangesOf first rest)) :=
      hsub.trans hperm.symm.subperm
    cases hchk : checkRangePairs (List.insertionSort rangeLE (allRangesOf first rest)) with
    | ok u =>
        exfalso
        cases u
        have hpw := checkRangePairs_ok_pairwise _ hwfs hsort hchk
        obtain ⟨t, hpt, hst⟩ := hsub2
        have hpwt : t.Pairwise rangeSepLt := hpw.sublist hst
        rcases perm_pair hpt with h | h
        · subst h
          have hsep : rangeSepLt l r := (List.pairwise_cons.mp hpwt).1 r (by simp)
          exact absurd hov.2 (not_le_of_lt hsep)
        · subst h
          have hsep : rangeSepLt r l := (List.pairwise_cons.mp hpwt).1 l (by simp)
          exact absurd hov.1 (not_le_of_lt hsep)
    | error e =>
        obtain ⟨l2, r2, he, hov2⟩ :=
          checkRangePairs_error_overlap _ hwfs hsort e hchk
        refine ⟨l2, r2, ?_, hov2⟩
        subst he
        simp only [get_metafits_chan_info, hcollect, hchk]
  · intro hsep
    have hseps : (List.insertionSort rangeLE (allRangesOf first rest)).Pairwise
        rangesSeparated :=
      (hperm.pairwise_iff (fun hab => rangesSeparated_symm hab)).mpr hsep
    have hchk := checkRangePairs_ok_of_separated _ hwfs hsort hseps
    simp only [get_metafits_chan_info, hcollect, hchk]

/-- C5 witness: two sources with disjoint, non-adjacent ranges `[0, 1]` and
`[3, 4]` and matching fine-channel parameters merge without error into the
sorted combined `ChanInfo`. -/
theorem c5_witness :
    ((∀ ci ∈ [ChanInfo.mk [[3, 4]] 2 10],
        ci.fine_chans_per_coarse = (ChanInfo.mk [[0, 1]] 2 10).fine_chans_per_coarse ∧
        ci.fine_chan_width_hz = (ChanInfo.mk [[0, 1]] 2 10).fine_chan_width_hz) ∧
      (∀ r ∈ allRangesOf (ChanInfo.mk [[0, 1]] 2 10) [ChanInfo.mk [[3, 4]] 2 10],
        rangeWF r) ∧
      (allRangesOf (ChanInfo.mk [[0, 1]] 2 10) [ChanInfo.mk [[3, 4]] 2 10]).Pairwise
        rangesSeparated) ∧
    get_metafits_chan_info [ChanInfo.mk [[0, 1]] 2 10, ChanInfo.mk [[3, 4]] 2 10] =
      .ok ⟨List.insertionSort rangeLE
          (allRangesOf (ChanInfo.mk [[0, 1]] 2 10) [ChanInfo.mk [[3, 4]] 2 10]),
        2, 10⟩ :=
  ⟨⟨by decide, by decide, by decide⟩,
    (c5_channel_overlap_detection (ChanInfo.mk [[0, 1]] 2 10)
      [ChanInfo.mk [[3, 4]] 2 10] (by decide) (by decide)).2 (by decide)⟩

/-- One 2×2 complex Jones matrix at a single (time, tile, chan) slot.  The
source stores the four components in four parallel `[time, tile, chan]`
arrays (82_calfit.py:296-305); the embedding groups the four co-indexed
entries into one record. -/
structure Jones4 where
  j00 : CF
  j01 : CF
  j10 : CF
  j11 : CF

/-- The determinant `r00 * r11 - r01 * r10` of 82_calfit.py:323. -/
def Jones4.det (r : Jones4) : CF :=
  CF.sub (CF.mul r.j00 r.j11) (CF.mul r.j01 r.j10)

/-- Division of a tile's Jones matrix by the reference tile's matrix via the
inverse determinant, exactly the four component expressions of
82_calfit.py:323-329. -/
def jonesRefDiv (s r : Jones4) : Jones4 :=
  ⟨CF.mul (CF.sub (CF.mul s.j00 r.j11) (CF.mul s.j01 r.j10)) (CF.oneDiv r.det),
   CF.mul (CF.sub (CF.mul s.j01 r.j00) (CF.mul s.j00 r.j01)) (CF.oneDiv r.det),
   CF.mul (CF.sub (CF.mul s.j10 r.j11) (CF.mul s.j11 r.j10)) (CF.oneDiv r.det),
   CF.mul (CF.sub (CF.mul s.j11 r.j00) (CF.mul s.j10 r.j01)) (CF.oneDiv r.det)⟩

/-- Embedding of `HyperfitsSolution.get_ref_solutions` (82_calfit.py:307-329):
with no reference tile the solutions are returned unchanged; otherwise every
tile's Jones matrix at every (time, chan) slot is divided by the reference
tile's matrix at the same (time, chan). -/
def get_ref_solutions (ref : Option ℕ) (sols : List (List (List Jones4))) :
    List (List (List Jones4)) :=
  match ref with
  | Option.none => sols
  | Option.some rIdx =>
      sols.map (fun timeSlice =>
        timeSlice.map (fun tileRow =>
          (tileRow.zip (timeSlice.getD rIdx [])).map
            (fun p => jonesRefDiv p.1 p.2)))

/-- Placeholder slot used as the out-of-range default of `jonesAt`. -/
def defaultJones : Jones4 := ⟨CF.nf, CF.nf, CF.nf, CF.nf⟩

/-- The Jones matrix at array position `[t][i][k]`. -/
def jonesAt (sols : List (List (List Jones4))) (t i k : ℕ) : Jones4 :=
  ((sols.getD t []).getD i []).getD k defaultJones

/-- The 2×2 identity matrix as a Jones slot. -/
def identityJones : Jones4 := ⟨CF.fin 1, CF.fin 0, CF.fin 0, CF.fin 1⟩

/-- All four entries of the matrix are finite. -/
def Jones4.allFiniteB (m : Jones4) : Bool :=
  m.j00.isFiniteB && m.j01.isFiniteB && m.j10.isFiniteB && m.j11.isFiniteB

/-- All four entries of the matrix are non-finite (NaN/Inf). -/
def Jones4.allNonFinite (m : Jones4) : Prop :=
  m.j00 = CF.nf ∧ m.j01 = CF.nf ∧ m.j10 = CF.nf ∧ m.j11 = CF.nf

lemma CF.mul_nf (x : CF) : CF.mul x CF.nf = CF.nf := by cases x <;> rfl

lemma jonesRefDiv_allNonFinite (s R : Jones4) (h : CF.oneDiv R.det = CF.nf) :
    (jonesRefDiv s R).allNonFinite := by
  unfold jonesRefDiv Jones4.allNonFinite
  rw [h]
  exact ⟨CF.mul_nf _, CF.mul_nf _, CF.mul_nf _, CF.mul_nf _⟩

lemma jonesRefDiv_self_identity {a b c d : ℂ} (h : a * d - b * c ≠ 0) :
    jonesRefDiv ⟨CF.fin a, CF.fin b, CF.fin c, CF.fin d⟩
      ⟨CF.fin a, CF.fin b, CF.fin c, CF.fin d⟩ = identityJones := by
  unfold jonesRefDiv Jones4.det identityJones
  simp only [CF.mul, CF.sub, CF.oneDiv, if_neg h]
  congr 1
  · congr 1
    exact mul_inv_cancel₀ h
  · congr 1
    rw [mul_comm b a]
    rw [sub_self, zero_mul]
  · congr 1
    rw [mul_comm c d]
    rw [sub_self, zero_mul]
  · congr 1
    rw [mul_comm d a, mul_comm c b]
    exact mul_inv_cancel₀ h

lemma Jones4.det_nf_of_not_allFinite (R : Jones4) (h : R.allFiniteB = false) :
    R.det = CF.nf := by
  rcases R with ⟨e00, e01, e10, e11⟩
  cases e00 <;> cases e01 <;> cases e10 <;> cases e11 <;>
    simp_all [Jones4.allFiniteB, Jones4.det, CF.mul, CF.sub, CF.isFiniteB]

lemma allNonFinite_not_allFiniteB {m : Jones4} (h : m.allNonFinite) :
    m.allFiniteB = false := by
  rcases m with ⟨e00, e01, e10, e11⟩
  rcases h with ⟨h0, h1, h2, h3⟩
  subst h0
  simp [Jones4.allFiniteB, CF.isFiniteB]


lemma Jones4.allFiniteB_true_elim {m : Jones4} (h : m.allFiniteB = true) :
    ∃ a b c d : ℂ, m = ⟨CF.fin a, CF.fin b, CF.fin c, CF.fin d⟩ := by
  rcases m with ⟨e00, e01, e10, e11⟩
  cases e00 <;> cases e01 <;> cases e10 <;> cases e11 <;>
    first
    | exact ⟨_, _, _, _, rfl⟩
    | simp_all [Jones4.allFiniteB, CF.isFiniteB]

lemma get_ref_solutions_some (rIdx : ℕ) (sols : List (List (List Jones4))) :
    get_ref_solutions (Option.some rIdx) sols =
      sols.map (fun timeSlice =>
        timeSlice.map (fun tileRow =>
          (tileRow.zip (timeSlice.getD rIdx [])).map
            (fun p => jonesRefDiv p.1 p.2))) := rfl


lemma getD_map_of_lt {α β : Type} (f : α → β) (l : List α) (d : β) (d2 : α)
    {n : ℕ} (h : n < l.length) : (l.map f).getD n d = f (l.getD n d2) := by
  rw [List.getD_eq_getElem (l.map f) d (by simpa using h), List.getElem_map,
    List.getD_eq_getElem l d2 h]

lemma getD_zip_self {α : Type} (l : List α) (d : α) {n : ℕ} (h : n < l.length) :
    (l.zip l).getD n (d, d) = (l.getD n d, l.getD n d) := by
  rw [List.getD_eq_getElem (l.zip l) (d, d) (by simpa [List.length_zip] using h),
    List.getElem_zip, List.getD_eq_getElem l d h]

lemma get_ref_solutions_self_slot (sols : List (List (List Jones4)))
    (rIdx t k : ℕ) (ht : t < sols.length)
    (hi : rIdx < (sols.getD t []).length)
    (hk : k < ((sols.getD t []).getD rIdx []).length) :
    jonesAt (get_ref_solutions (Option.some rIdx) sols) t rIdx k =
      jonesRefDiv (jonesAt sols t rIdx k) (jonesAt sols t rIdx k) := by
  unfold jonesAt
  rw [get_ref_solutions_some, getD_map_of_lt _ sols [] [] ht]
  rw [getD_map_of_lt _ (sols.getD t []) [] [] hi]
  rw [getD_map_of_lt _ _ defaultJones (defaultJones, defaultJones)
    (show k < (((sols.getD t []).getD rIdx []).zip
      ((sols.getD t []).getD rIdx [])).length by
        simpa [List.length_zip] using hk)]
  rw [getD_zip_self _ defaultJones hk]

/-- C6: reference-tile self-normalisation at any in-range (time, chan) slot of
the reference tile.  Dividing the reference matrix by itself yields the 2×2
identity whenever its entries are finite and its determinant is non-zero;
whenever its determinant is zero the four result entries are all NaN/Inf (no
exception — `get_ref_solutions` is total); and whenever the resulting entries
are finite they do form the identity matrix. -/
theorem c6_ref_tile_identity (sols : List (List (List Jones4)))
    (rIdx t k : ℕ) (ht : t < sols.length)
    (hi : rIdx < (sols.getD t []).length)
    (hk : k < ((sols.getD t []).getD rIdx []).length) :
    (((jonesAt sols t rIdx k).allFiniteB = true ∧
        (jonesAt sols t rIdx k).det ≠ CF.fin 0) →
      jonesAt (get_ref_solutions (Option.some rIdx) sols) t rIdx k =
        identityJones) ∧
    (((jonesAt sols t rIdx k).allFiniteB = true ∧
        (jonesAt sols t rIdx k).det = CF.fin 0) →
      (jonesAt (get_ref_solutions (Option.some rIdx) sols) t rIdx k).allNonFinite) ∧
    ((jonesAt (get_ref_solutions (Option.some rIdx) sols) t rIdx k).allFiniteB =
        true →
      jonesAt (get_ref_solutions (Option.some rIdx) sols) t rIdx k =
        identityJones) := by
  have hslot := get_ref_solutions_self_slot sols rIdx t k ht hi hk
  refine ⟨?_, ?_, ?_⟩
  · rintro ⟨hfin, hdet⟩
    obtain ⟨a, b, c, d, hm⟩ := Jones4.allFiniteB_true_elim hfin
    rw [hm] at hslot hdet
    have hd : a * d - b * c ≠ 0 := by
      intro h0
      exact hdet (by simp [Jones4.det, CF.mul, CF.sub, h0])
    rw [hslot]
    exact jonesRefDiv_self_identity hd
  · rintro ⟨_, hdet⟩
    rw [hslot]
    refine jonesRefDiv_allNonFinite _ _ ?_
    rw [hdet]
    simp [CF.oneDiv]
  · intro hfin
    by_cases hf : (jonesAt sols t rIdx k).allFiniteB = true
    · obtain ⟨a, b, c, d, hm⟩ := Jones4.allFiniteB_true_elim hf
      rw [hm] at hslot
      by_cases hd : a * d - b * c = 0
      · exfalso
        have hnf : (jonesAt (get_ref_solutions (Option.some rIdx) sols)
            t rIdx k).allNonFinite := by
          rw [hslot]
          refine jonesRefDiv_allNonFinite _ _ ?_
          simp [Jones4.det, CF.mul, CF.sub, CF.oneDiv, hd]
        rw [allNonFinite_not_allFiniteB hnf] at hfin
        exact absurd hfin (by simp)
      · rw [hslot]
        exact jonesRefDiv_self_identity hd
    · exfalso
      have hdet := Jones4.det_nf_of_not_allFinite _
        (by simpa using hf : (jonesAt sols t rIdx k).allFiniteB = false)
      have hnf : (jonesAt (get_ref_solutions (Option.some rIdx) sols)
          t rIdx k).allNonFinite := by
        rw [hslot]
        refine jonesRefDiv_allNonFinite _ _ ?_
        rw [hdet]
        rfl
      rw [allNonFinite_not_allFiniteB hnf] at hfin
      exact absurd hfin (by simp)

/-- A concrete finite reference Jones matrix with non-zero determinant. -/
def sampleJones : Jones4 := ⟨CF.fin 2, CF.fin 0, CF.fin 0, CF.fin 1⟩

/-- C6 witness: for a 1-time, 1-tile, 1-channel solution holding a finite
matrix of determinant 2, self-referencing yields exactly the identity. -/
theorem c6_witness :
    ((jonesAt [[[sampleJones]]] 0 0 0).allFiniteB = true ∧
      (jonesAt [[[sampleJones]]] 0 0 0).det ≠ CF.fin 0) ∧
      jonesAt (get_ref_solutions (Option.some 0) [[[sampleJones]]]) 0 0 0 =
        identityJones := by
  have hfin : (jonesAt [[[sampleJones]]] 0 0 0).allFiniteB = true := rfl
  have hdet : (jonesAt [[[sampleJones]]] 0 0 0).det ≠ CF.fin 0 := by
    intro h
    simp only [jonesAt, sampleJones, List.getD, Jones4.det, CF.mul, CF.sub,
      CF.fin.injEq] at h
    norm_num at h
  exact ⟨⟨hfin, hdet⟩,
    (c6_ref_tile_identity [[[sampleJones]]] 0 0 0 (by decide) (by decide)
      (by decide)).1 ⟨hfin, hdet⟩⟩

/-- Gain fit summary (NamedTuple `GainFitInfo`, 82_calfit.py:781-810). -/
structure GainFitInfo where
  quality : F
  gains : List F
  pol0 : List F
  pol1 : List F
  sigma_resid : List F

/-- The finite value carried by a modelled double (0 for non-finite values;
only applied under finiteness hypotheses). -/
def F.toReal : F → ℝ
  | F.fin x => x
  | _ => 0

/-- The numpy `sum` reduction over modelled doubles. -/
def sumF (l : List F) : F := l.foldl F.add (F.fin 0)

/-- The numpy `np.split(arr, n)` of 82_calfit.py:1054-1060: `n` successive
parts, each of `sz = len / n` elements (the caller divides evenly). -/
def splitN {α : Type} (sz : ℕ) : ℕ → List α → List (List α)
  | 0, _ => []
  | n + 1, l => l.take sz :: splitN sz n (l.drop sz)

/-- The valid channels of one coarse chunk: finite amplitude and strictly
positive weight (82_calfit.py:1062-1064). -/
def gainValid (chunk : List (ℤ × F × F)) : List (ℤ × F × F) :=
  chunk.filter (fun t => t.2.1.isFiniteB && F.ltB (F.fin 0) t.2.2)

/-- The per-coarse-chunk gain (82_calfit.py:1061-1073): NaN when fewer than 2
valid channels remain, the weighted mean amplitude otherwise. -/
def gainOfChunk (chunk : List (ℤ × F × F)) : F :=
  if (gainValid chunk).length < 2 then F.nan
  else
    F.div (sumF ((gainValid chunk).map (fun t => F.mul t.2.1 t.2.2)))
      (sumF ((gainValid chunk).map (fun t => t.2.2)))

/-- The per-coarse-chunk secondary outputs `pol0`, `pol1`, `sigma_resid`
(82_calfit.py:1075-1077): left NaN for invalid chunks, set to 0 otherwise. -/
def gainZeroOfChunk (chunk : List (ℤ × F × F)) : F :=
  if (gainValid chunk).length < 2 then F.nan else F.fin 0

/-- Embedding of `fit_gain` (82_calfit.py:1040-1088): split the (channel,
amplitude, weight) triples into `n_coarse = len / chanblocks_per_coarse`
chunks and compute each coarse channel's weighted mean amplitude; `quality`
is the hard-coded placeholder 1.0. -/
def fit_gain (chanblocks_hz : List ℤ) (solns : List CF) (weights : List F)
    (chanblocks_per_coarse : ℕ) : GainFitInfo :=
  ⟨F.fin 1,
   (splitN chanblocks_per_coarse (chanblocks_hz.length / chanblocks_per_coarse)
     (chanblocks_hz.zip ((solns.map CF.absF).zip weights))).map gainOfChunk,
   (splitN chanblocks_per_coarse (chanblocks_hz.length / chanblocks_per_coarse)
     (chanblocks_hz.zip ((solns.map CF.absF).zip weights))).map gainZeroOfChunk,
   (splitN chanblocks_per_coarse (chanblocks_hz.length / chanblocks_per_coarse)
     (chanblocks_hz.zip ((solns.map CF.absF).zip weights))).map gainZeroOfChunk,
   (splitN chanblocks_per_coarse (chanblocks_hz.length / chanblocks_per_coarse)
     (chanblocks_hz.zip ((solns.map CF.absF).zip weights))).map gainZeroOfChunk⟩

lemma splitN_length {α : Type} (sz N : ℕ) :
    ∀ l : List α, (splitN sz N l).length = N := by
  induction N with
  | zero => intro l; rfl
  | succ N ih => intro l; simp [splitN, ih]

lemma splitN_getD {α : Type} (sz : ℕ) :
    ∀ (N : ℕ) (l : List α) (i : ℕ), i < N →
      (splitN sz N l).getD i [] = (l.drop (i * sz)).take sz := by
  intro N
  induction N with
  | zero => intro l i hi; omega
  | succ N ih =>
      intro l i hi
      cases i with
      | zero => simp [splitN]
      | succ i =>
          simp only [splitN, List.getD_cons_succ]
          rw [ih (l.drop sz) i (by omega), List.drop_drop]
          congr 2
          ring

lemma foldl_add_fin :
    ∀ (l : List F), (∀ x ∈ l, x.isFiniteB = true) →
      ∀ s : ℝ, l.foldl F.add (F.fin s) = F.fin (s + (l.map F.toReal).sum) := by
  intro l
  induction l with
  | nil => intro _ s; simp
  | cons x xs ih =>
      intro hl s
      obtain ⟨xv, rfl⟩ : ∃ v, x = F.fin v := by
        have := hl x (List.mem_cons_self x xs)
        cases x with
        | fin v => exact ⟨v, rfl⟩
        | nan => simp [F.isFiniteB] at this
        | pinf => simp [F.isFiniteB] at this
        | ninf => simp [F.isFiniteB] at this
      simp only [List.foldl_cons, F.add, List.map_cons, List.sum_cons]
      rw [ih (fun y hy => hl y (List.mem_cons_of_mem _ hy)) (s + xv)]
      congr 1
      simp [F.toReal]
      ring

lemma sumF_fin (l : List F) (hl : ∀ x ∈ l, x.isFiniteB = true) :
    sumF l = F.fin ((l.map F.toReal).sum) := by
  unfold sumF
  rw [foldl_add_fin l hl 0, zero_add]

/-- The `i`-th coarse chunk of the (channel, amplitude, weight) triples. -/
def gainChunkAt (chanblocks_hz : List ℤ) (solns : List CF) (weights : List F)
    (cpc i : ℕ) : List (ℤ × F × F) :=
  ((chanblocks_hz.zip ((solns.map CF.absF).zip weights)).drop (i * cpc)).take cpc

lemma F.div_fin_fin (x y : ℝ) (hy : y ≠ 0) :
    F.div (F.fin x) (F.fin y) = F.fin (x / y) := by
  show (if y = 0 then (if x = 0 then F.nan else if 0 < x then F.pinf else F.ninf)
    else F.fin (x / y)) = F.fin (x / y)
  rw [if_neg hy]

lemma gainValid_props {chunk : List (ℤ × F × F)} {t : ℤ × F × F}
    (ht : t ∈ gainValid chunk) :
    t ∈ chunk ∧ t.2.1.isFiniteB = true ∧ F.lt (F.fin 0) t.2.2 := by
  have h1 := List.mem_of_mem_filter ht
  have h2 := List.of_mem_filter ht
  simp only [Bool.and_eq_true, decide_eq_true_eq, F.ltB] at h2
  exact ⟨h1, h2.1, h2.2⟩

/-- C7: `fit_gain` on `N * chanblocks_per_coarse` channels produces exactly
`N` gain entries; a chunk with fewer than 2 valid channels (finite amplitude,
strictly positive weight) leaves NaN, and a chunk with at least 2 valid
channels gets the weighted mean amplitude `Σ amp·w / Σ w` over its valid
channels. -/
theorem c7_fit_gain_chunking (chanblocks_hz : List ℤ) (solns : List CF)
    (weights : List F) (cpc N : ℕ) (hcpc : 0 < cpc)
    (hlen : chanblocks_hz.length = N * cpc)
    (hwfin : ∀ w ∈ weights, w.isFiniteB = true) :
    (fit_gain chanblocks_hz solns weights cpc).gains.length = N ∧
      ∀ i, i < N →
        ((gainValid (gainChunkAt chanblocks_hz solns weights cpc i)).length < 2 →
          (fit_gain chanblocks_hz solns weights cpc).gains.getD i F.nan =
            F.nan) ∧
        (2 ≤ (gainValid (gainChunkAt chanblocks_hz solns weights cpc i)).length →
          (fit_gain chanblocks_hz solns weights cpc).gains.getD i F.nan =
            F.fin
              (((gainValid (gainChunkAt chanblocks_hz solns weights cpc i)).map
                  (fun t => t.2.1.toReal * t.2.2.toReal)).sum /
                ((gainValid (gainChunkAt chanblocks_hz solns weights cpc i)).map
                  (fun t => t.2.2.toReal)).sum)) := by
  have hN : chanblocks_hz.length / cpc = N := by
    rw [hlen]
    exact Nat.mul_div_cancel N hcpc
  have hgains : (fit_gain chanblocks_hz solns weights cpc).gains =
      (splitN cpc N
        (chanblocks_hz.zip ((solns.map CF.absF).zip weights))).map gainOfChunk := by
    unfold fit_gain
    rw [hN]
  constructor
  · rw [hgains]
    simp [splitN_length]
  · intro i hi
    have hchunk : (fit_gain chanblocks_hz solns weights cpc).gains.getD i F.nan =
        gainOfChunk (gainChunkAt chanblocks_hz solns weights cpc i) := by
      rw [hgains, getD_map_of_lt gainOfChunk _ F.nan []
        (by rw [splitN_length]; exact hi)]
      rw [splitN_getD cpc N _ i hi]
      rfl
    constructor
    · intro hlt
      rw [hchunk]
      unfold gainOfChunk
      rw [if_pos hlt]
    · intro hge
      rw [hchunk]
      unfold gainOfChunk
      rw [if_neg (by omega)]
      set v := gainValid (gainChunkAt chanblocks_hz solns weights cpc i) with hv
      have hwmem : ∀ t ∈ v, t.2.2.isFiniteB = true := by
        intro t htv
        have hprops := gainValid_props (hv ▸ htv)
        have htz : t ∈ chanblocks_hz.zip ((solns.map CF.absF).zip weights) :=
          List.drop_subset _ _ (List.take_subset _ _ hprops.1)
        rcases t with ⟨c, a, w⟩
        have hz := List.of_mem_zip htz
        have hz2 := List.of_mem_zip hz.2
        exact hwfin w hz2.2
      have hafin : ∀ t ∈ v, t.2.1.isFiniteB = true :=
        fun t htv => (gainValid_props (hv ▸ htv)).2.1
      have hwpos : ∀ t ∈ v, F.lt (F.fin 0) t.2.2 :=
        fun t htv => (gainValid_props (hv ▸ htv)).2.2
      have hprodfin : ∀ x ∈ v.map (fun t => F.mul t.2.1 t.2.2),
          x.isFiniteB = true := by
        intro x hx
        rcases List.mem_map.mp hx with ⟨t, htv, rfl⟩
        have ha := hafin t htv
        have hw := hwmem t htv
        cases hA : t.2.1 with
        | fin av =>
            cases hW : t.2.2 with
            | fin wv => simp [F.mul, F.isFiniteB]
            | nan => rw [hW] at hw; simp [F.isFiniteB] at hw
            | pinf => rw [hW] at hw; simp [F.isFiniteB] at hw
            | ninf => rw [hW] at hw; simp [F.isFiniteB] at hw
        | nan => rw [hA] at ha; simp [F.isFiniteB] at ha
        | pinf => rw [hA] at ha; simp [F.isFiniteB] at ha
        | ninf => rw [hA] at ha; simp [F.isFiniteB] at ha
      have hwvfin : ∀ x ∈ v.map (fun t => t.2.2), x.isFiniteB = true := by
        intro x hx
        rcases List.mem_map.mp hx with ⟨t, htv, rfl⟩
        exact hwmem t htv
      rw [sumF_fin _ hprodfin, sumF_fin _ hwvfin]
      have hprodval : (v.map (fun t => F.mul t.2.1 t.2.2)).map F.toReal =
          v.map (fun t => t.2.1.toReal * t.2.2.toReal) := by
        rw [List.map_map]
        apply List.map_congr_left
        intro t htv
        have ha := hafin t htv
        have hw := hwmem t htv
        cases hA : t.2.1 with
        | fin av =>
            cases hW : t.2.2 with
            | fin wv =>
                simp only [Function.comp_apply]
                rw [hA, hW]
                simp [F.mul, F.toReal]
            | nan => rw [hW] at hw; simp [F.isFiniteB] at hw
            | pinf => rw [hW] at hw; simp [F.isFiniteB] at hw
            | ninf => rw [hW] at hw; simp [F.isFiniteB] at hw
        | nan => rw [hA] at ha; simp [F.isFiniteB] at ha
        | pinf => rw [hA] at ha; simp [F.isFiniteB] at ha
        | ninf => rw [hA] at ha; simp [F.isFiniteB] at ha
      have hwval : (v.map (fun t => t.2.2)).map F.toReal =
          v.map (fun t => t.2.2.toReal) := by
        rw [List.map_map]
        rfl
      rw [hprodval, hwval]
      have hpos : 0 < (v.map (fun t => t.2.2.toReal)).sum := by
        apply List.sum_pos
        · intro x hx
          rcases List.mem_map.mp hx with ⟨t, htv, rfl⟩
          have hw := hwmem t htv
          have hp := hwpos t htv
          cases hW : t.2.2 with
          | fin wv =>
              rw [hW] at hp
              simpa [F.toReal] using hp
          | nan => rw [hW] at hw; simp [F.isFiniteB] at hw
          | pinf => rw [hW] at hw; simp [F.isFiniteB] at hw
          | ninf => rw [hW] at hw; simp [F.isFiniteB] at hw
        · intro h
          rw [List.map_eq_nil_iff] at h
          rw [h] at hge
          simp at hge
      exact F.div_fin_fin _ _ (ne_of_gt hpos)

/-- C7 witness: two coarse channels of two chanblocks each; the first chunk
has two valid channels, the second has only one (a non-finite solution).  The
theorem applies and yields exactly 2 gain entries. -/
theorem c7_witness :
    (0 < 2 ∧ ([1, 2, 3, 4] : List ℤ).length = 2 * 2 ∧
      (∀ w ∈ [F.fin 1, F.fin 3, F.fin 1, F.fin 1], w.isFiniteB = true)) ∧
      (fit_gain [1, 2, 3, 4] [CF.fin 3, CF.fin 5, CF.fin 1, CF.nf]
        [F.fin 1, F.fin 3, F.fin 1, F.fin 1] 2).gains.length = 2 :=
  ⟨⟨by decide, by decide, by decide⟩,
   (c7_fit_gain_chunking [1, 2, 3, 4] [CF.fin 3, CF.fin 5, CF.fin 1, CF.nf]
     [F.fin 1, F.fin 3, F.fin 1, F.fin 1] 2 2 (by decide) (by decide)
     (by decide)).1⟩

/-- Ordering of (freq, solution, weight) triples by ascending frequency — the
key of the `np.argsort(freqs_hz)` reindexing (82_calfit.py:850-853). -/
def tripLE (a b : ℝ × CF × F) : Prop := a.1 ≤ b.1

/-- Strict frequency ordering of triples. -/
def tripLT (a b : ℝ × CF × F) : Prop := a.1 < b.1

instance : DecidableRel tripLE := fun a b => inferInstanceAs (Decidable (a.1 ≤ b.1))

instance : IsTotal (ℝ × CF × F) tripLE := ⟨fun a b => le_total a.1 b.1⟩

instance : IsTrans (ℝ × CF × F) tripLE := ⟨fun _ _ _ => le_trans⟩

instance : IsAntisymm (ℝ × CF × F) tripLT :=
  ⟨fun a _ h h2 => absurd (lt_trans h h2) (lt_irrefl a.1)⟩

/-- The bin width `np.min(np.diff(freqs_hz))` (82_calfit.py:862), on a sorted
frequency list of length at least 2 (on shorter lists numpy raises before
this value is used; the 0 branch is never reached by `fit_phase_line`). -/
def minDiffs (l : List ℝ) : ℝ :=
  match (l.zip l.tail).map (fun p => p.2 - p.1) with
  | [] => 0
  | d :: ds => ds.foldl min d

/-- The validity test of the channel mask (82_calfit.py:865):
`np.isfinite(solution) & (weights > 0)`. -/
def validTrip (p : CF × F) : Bool := p.1.isFiniteB && F.ltB (F.fin 0) p.2

/-- The number of valid channels of a (solution, weights) pair of arrays. -/
def validCount (solution : List CF) (weights : List F) : ℕ :=
  ((solution.zip weights).filter validTrip).length

/-- The validated, sorted data handed to the numeric tail of
`fit_phase_line`: the original channel count (used for `quality`), the bin
width, and the sorted valid (freq, normalised solution, weight) triples. -/
structure FitData where
  nfreqs : ℕ
  dnu : ℝ
  triples : List (ℝ × CF × F)

/-- Embedding of `fit_phase_line` (82_calfit.py:831-1037).  The validation
prefix (sorting by frequency, the `np.min(np.diff(...))` bin width — a
ValueError on fewer than 2 channels — the valid-channel mask with its
"Not enough valid phases" RuntimeError, and the normalisation
`solution / abs(solution) * weights`) is embedded concretely.  Everything
after it — the FFT coarse delay search, the initial intercept/ionosphere
estimates and the `scipy.optimize.minimize` refinement loop — is third-party
floating-point numeric code and is abstracted as the function argument
`rest`, a pure function of the validated data (and of `niter`, `fit_iono`). -/
def fit_phase_line (rest : FitData → ℕ → Bool → Except FitErr PhaseFitInfo)
    (freqs_hz : List ℝ) (solution : List CF) (weights : List F)
    (niter : ℕ) (fit_iono : Bool) : Except FitErr PhaseFitInfo :=
  if (List.insertionSort tripLE (freqs_hz.zip (solution.zip weights))).length < 2
  then .error .emptyDiffMin
  else if ((List.insertionSort tripLE (freqs_hz.zip (solution.zip weights))).filter
      (fun t => validTrip t.2)).length < 2
  then .error .notEnoughValidPhases
  else
    rest
      ⟨freqs_hz.length,
        minDiffs ((List.insertionSort tripLE
          (freqs_hz.zip (solution.zip weights))).map (fun t => t.1)),
        ((List.insertionSort tripLE (freqs_hz.zip (solution.zip weights))).filter
          (fun t => validTrip t.2)).map
          (fun t => (t.1, CF.scaleF (CF.unit t.2.1) t.2.2, t.2.2))⟩
      niter fit_iono

/-- A trivial numeric tail used to instantiate `rest` in concrete runs. -/
def trivRest : FitData → ℕ → Bool → Except FitErr PhaseFitInfo :=
  fun _ _ _ => .ok sampleFit

lemma zip3_length {freqs_hz : List ℝ} {solution : List CF} {weights : List F}
    (hs : solution.length = freqs_hz.length)
    (hw : weights.length = freqs_hz.length) :
    (freqs_hz.zip (solution.zip weights)).length = freqs_hz.length := by
  simp [List.length_zip, hs, hw]

/-- C2 (amended): whenever `fit_phase_line` is given at least 2 channels of
which fewer than 2 are valid (finite solution, strictly positive weight), it
raises the named "Not enough valid phases" error — regardless of the numeric
tail, so no `PhaseFitInfo` is ever produced.  (With fewer than 2 channels in
total, a different error — the ValueError from `np.min` of an empty
`np.diff` — fires first; see the counterexample.) -/
theorem c2_not_enough_valid_phases
    (rest : FitData → ℕ → Bool → Except FitErr PhaseFitInfo)
    (freqs_hz : List ℝ) (solution : List CF) (weights : List F)
    (niter : ℕ) (fit_iono : Bool)
    (hs : solution.length = freqs_hz.length)
    (hw : weights.length = freqs_hz.length)
    (hn : 2 ≤ freqs_hz.length)
    (hv : validCount solution weights < 2) :
    fit_phase_line rest freqs_hz solution weights niter fit_iono =
      .error .notEnoughValidPhases := by
  have hlen : (List.insertionSort tripLE
      (freqs_hz.zip (solution.zip weights))).length = freqs_hz.length := by
    rw [List.length_insertionSort]
    exact zip3_length hs hw
  have hvalid : ((List.insertionSort tripLE
      (freqs_hz.zip (solution.zip weights))).filter
        (fun t => validTrip t.2)).length = validCount solution weights := by
    unfold validCount
    rw [← List.countP_eq_length_filter, ← List.countP_eq_length_filter]
    rw [(List.perm_insertionSort tripLE _).countP_eq]
    rw [show (fun (t : ℝ × CF × F) => validTrip t.2) =
      (fun t => validTrip t) ∘ Prod.snd from rfl]
    rw [← List.countP_map]
    rw [List.map_snd_zip freqs_hz (solution.zip weights)
      (by simp [List.length_zip, hs, hw])]
  unfold fit_phase_line
  rw [if_neg (by omega), if_pos (by omega)]

/-- C2 counterexample: a single-channel call satisfies "fewer than 2 valid
channels", but the function fails with the ValueError numpy raises for
`np.min` of the empty `np.diff` (82_calfit.py:862) — reached before the
valid-channel check — not with the named "Not enough valid phases" error. -/
theorem c2_counterexample :
    validCount [CF.nf] [F.fin 1] < 2 ∧
      fit_phase_line trivRest [150000000] [CF.nf] [F.fin 1] 1 false =
        .error .emptyDiffMin ∧
      FitErr.emptyDiffMin ≠ FitErr.notEnoughValidPhases := by
  refine ⟨by decide, rfl, by decide⟩

/-- C2 witness: the amended theorem applied to two channels that are both
invalid (non-finite solutions): the named error is raised. -/
theorem c2_witness :
    (([CF.nf, CF.nf] : List CF).length = ([1, 2] : List ℝ).length ∧
      ([F.fin 1, F.fin 1] : List F).length = ([1, 2] : List ℝ).length ∧
      2 ≤ ([1, 2] : List ℝ).length ∧
      validCount [CF.nf, CF.nf] [F.fin 1, F.fin 1] < 2) ∧
    fit_phase_line trivRest [1, 2] [CF.nf, CF.nf] [F.fin 1, F.fin 1] 1 false =
      .error .notEnoughValidPhases :=
  ⟨⟨rfl, rfl, by decide, by decide⟩,
   c2_not_enough_valid_phases trivRest [1, 2] [CF.nf, CF.nf]
     [F.fin 1, F.fin 1] 1 false rfl rfl (by decide) (by decide)⟩

/-- C10: permutation invariance of `fit_phase_line`.  For pairwise-distinct
frequencies, applying any permutation simultaneously to the frequency,
solution and weight arrays leaves the result unchanged, because the triples
are sorted by ascending frequency before any other processing — this holds
for every numeric tail `rest`. -/
theorem c10_permutation_invariance
    (rest : FitData → ℕ → Bool → Except FitErr PhaseFitInfo)
    (freqs₁ : List ℝ) (sol₁ : List CF) (w₁ : List F)
    (freqs₂ : List ℝ) (sol₂ : List CF) (w₂ : List F)
    (niter : ℕ) (fit_iono : Bool)
    (h1s : sol₁.length = freqs₁.length) (h1w : w₁.length = freqs₁.length)
    (h2s : sol₂.length = freqs₂.length) (h2w : w₂.length = freqs₂.length)
    (hnd : freqs₁.Nodup)
    (hperm : (freqs₁.zip (sol₁.zip w₁)).Perm (freqs₂.zip (sol₂.zip w₂))) :
    fit_phase_line rest freqs₁ sol₁ w₁ niter fit_iono =
      fit_phase_line rest freqs₂ sol₂ w₂ niter fit_iono := by
  have hlen12 : freqs₁.length = freqs₂.length := by
    have h := hperm.length_eq
    rw [zip3_length h1s h1w, zip3_length h2s h2w] at h
    exact h
  have hmap1 : (freqs₁.zip (sol₁.zip w₁)).map Prod.fst = freqs₁ :=
    List.map_fst_zip _ _ (by simp [List.length_zip, h1s, h1w])
  have hp : (List.insertionSort tripLE (freqs₁.zip (sol₁.zip w₁))).Perm
      (List.insertionSort tripLE (freqs₂.zip (sol₂.zip w₂))) :=
    (List.perm_insertionSort tripLE _).trans
      (hperm.trans (List.perm_insertionSort tripLE _).symm)
  have hnd1 : ((List.insertionSort tripLE (freqs₁.zip (sol₁.zip w₁))).map
      Prod.fst).Nodup := by
    have hpm : ((List.insertionSort tripLE (freqs₁.zip (sol₁.zip w₁))).map
        Prod.fst).Perm ((freqs₁.zip (sol₁.zip w₁)).map Prod.fst) :=
      (List.perm_insertionSort tripLE _).map Prod.fst
    rw [hmap1] at hpm
    exact hpm.nodup_iff.mpr hnd
  have hnd2 : ((List.insertionSort tripLE (freqs₂.zip (sol₂.zip w₂))).map
      Prod.fst).Nodup := by
    have hpm := (hp.map Prod.fst).nodup_iff.mp hnd1
    exact hpm
  have hlt1 : List.Pairwise tripLT
      (List.insertionSort tripLE (freqs₁.zip (sol₁.zip w₁))) := by
    have hle := List.sorted_insertionSort tripLE (freqs₁.zip (sol₁.zip w₁))
    have hne := List.pairwise_map.mp hnd1
    exact (hle.and hne).imp (fun h => lt_of_le_of_ne h.1 h.2)
  have hlt2 : List.Pairwise tripLT
      (List.insertionSort tripLE (freqs₂.zip (sol₂.zip w₂))) := by
    have hle := List.sorted_insertionSort tripLE (freqs₂.zip (sol₂.zip w₂))
    have hne := List.pairwise_map.mp hnd2
    exact (hle.and hne).imp (fun h => lt_of_le_of_ne h.1 h.2)
  have hseq : List.insertionSort tripLE (freqs₁.zip (sol₁.zip w₁)) =
      List.insertionSort tripLE (freqs₂.zip (sol₂.zip w₂)) :=
    List.eq_of_perm_of_sorted hp hlt1 hlt2
  unfold fit_phase_line
  rw [hseq, hlen12]

/-- C10 witness: the theorem applied to a concrete 2-channel input and its
swap — the results agree. -/
theorem c10_witness :
    (([2, 1] : List ℝ).Nodup ∧
      ((([2, 1] : List ℝ).zip ([CF.nf, CF.fin 1].zip [F.fin 1, F.fin 2]))).Perm
        ((([1, 2] : List ℝ).zip ([CF.fin 1, CF.nf].zip [F.fin 2, F.fin 1])))) ∧
    fit_phase_line trivRest [2, 1] [CF.nf, CF.fin 1] [F.fin 1, F.fin 2] 1 false =
      fit_phase_line trivRest [1, 2] [CF.fin 1, CF.nf] [F.fin 2, F.fin 1] 1
        false := by
  have hnd : ([2, 1] : List ℝ).Nodup := by
    simp only [List.nodup_cons, List.mem_singleton, List.nodup_nil, and_true,
      List.not_mem_nil, not_false_iff]
    norm_num
  have hperm : ((([2, 1] : List ℝ).zip
      ([CF.nf, CF.fin 1].zip [F.fin 1, F.fin 2]))).Perm
      ((([1, 2] : List ℝ).zip ([CF.fin 1, CF.nf].zip [F.fin 2, F.fin 1]))) := by
    exact List.Perm.swap ((1 : ℝ), CF.fin 1, F.fin 2) ((2 : ℝ), CF.nf, F.fin 1) []
  exact ⟨⟨hnd, hperm⟩,
    c10_permutation_invariance trivRest [2, 1] [CF.nf, CF.fin 1]
      [F.fin 1, F.fin 2] [1, 2] [CF.fin 1, CF.nf] [F.fin 2, F.fin 1] 1 false
      rfl rfl rfl rfl hnd hperm⟩
